import Mathlib

/-!
Shallow embedding of the matching engine in `matching-engine/src/models.rs` and
`matching-engine/src/matching.rs`, together with theorems checking the
natural-language specification against it.

Modelling conventions:
* `u64` values are `Nat`; wrapping (release-build) u64 arithmetic is made
  explicit through `wadd`/`wsub`/`wsum`, which reduce modulo `2^64`.
* `BinaryHeap<PartialOrder>` is a `List PartialOrder` holding the same
  multiset of elements.  The heap's comparisons go through the hand-written
  `PartialOrd` in `models.rs`, which orders by `Reverse(ordinal)`, so a `pop`
  returns the stored order with the least `ordinal`.  Popping every element
  (which is how `match_order` consumes a level: it only pops, and a push is
  always followed by an immediate `break`) therefore yields the elements in
  ascending `ordinal` order; `sortByOrdinal` produces exactly that pop
  sequence and `heapPop` returns one pop.
* `BTreeMap<u64, _>` is an association list with strictly ascending keys;
  `range(..=p)` / `range(p..)` become `takeWhile` / `dropWhile` over it.
* The debug-build panic of `remaining_amount -= matched_amount` on u64
  underflow at matching.rs:146 is tracked by the separate instrumented
  functions `matchLevelPan`/`matchLoopPan`/`runPan`, which replay the very
  same control flow and report whether that subtraction underflows.
-/

namespace Matching

/-- Side of an order (`models.rs`): `Buy` or `Sell`. -/
inductive Side : Type where
  | Buy : Side
  | Sell : Side
deriving DecidableEq, Repr

/-- An incoming order (`models.rs::Order`). -/
structure Order : Type where
  price : Nat
  amount : Nat
  side : Side
  signer : String
deriving DecidableEq, Repr

/-- A resting order kept in the book (`models.rs::PartialOrder`). -/
structure PartialOrder : Type where
  price : Nat
  amount : Nat
  remaining : Nat
  side : Side
  signer : String
  ordinal : Nat
deriving DecidableEq, Repr

/-- Receipt returned by `process` (`models.rs::Receipt`). -/
structure Receipt : Type where
  ordinal : Nat
  «matches» : List PartialOrder
deriving DecidableEq, Repr

/-- The u64 modulus. -/
def U64 : Nat := 18446744073709551616

/-- Wrapping u64 addition. -/
def wadd (a b : Nat) : Nat := (a + b) % U64

/-- Wrapping u64 subtraction (two's complement behaviour of a release build). -/
def wsub (a b : Nat) : Nat := (a + U64 - b) % U64

/-- u64 iterator `.sum()`, wrapping. -/
def wsum (l : List Nat) : Nat := l.foldl wadd 0

/-- `Order::into_partial_order` (`models.rs`). -/
def Order.intoPartialOrder (o : Order) (ordinal remaining : Nat) : PartialOrder :=
  { price := o.price, amount := o.amount, remaining := remaining,
    side := o.side, signer := o.signer, ordinal := ordinal }

/-- `PartialOrder::take_from` (`models.rs`): returns the pair
(mutated `pos`, returned split-off order). -/
def PartialOrder.take_from (pos : PartialOrder) (take price : Nat) :
    PartialOrder × PartialOrder :=
  let remaining_amount := wsub pos.remaining take
  let pos' := { pos with remaining := remaining_amount }
  (pos', { pos' with amount := remaining_amount, price := price })

/-- One price level: the contents of a `BinaryHeap<PartialOrder>`. -/
abbrev Level : Type := List PartialOrder

/-- One side of the book: a `BTreeMap<u64, BinaryHeap<PartialOrder>>` as an
association list with strictly ascending keys. -/
abbrev Book : Type := List (Nat × Level)

/-- Insert into a list that is sorted by ascending `ordinal`. -/
def insertByOrdinal (p : PartialOrder) : Level → Level
  | [] => [p]
  | q :: l => if p.ordinal ≤ q.ordinal then p :: q :: l else q :: insertByOrdinal p l

/-- The pop sequence of the heap: its elements in ascending `ordinal` order
(the hand-written `PartialOrd` in `models.rs` compares `Reverse(ordinal)`,
so `BinaryHeap::pop` yields the least ordinal first). -/
def sortByOrdinal : Level → Level
  | [] => []
  | p :: l => insertByOrdinal p (sortByOrdinal l)

/-- `BinaryHeap::pop`: removes the stored order retrieved first, i.e. the one
with the least `ordinal`. -/
def heapPop (l : Level) : Option (PartialOrder × Level) :=
  match sortByOrdinal l with
  | [] => none
  | p :: r => some (p, r)

/-- `BinaryHeap::push` (only the multiset of elements matters). -/
def heapPush (p : PartialOrder) (l : Level) : Level := p :: l

/-- `BTreeMap::entry(price).or_insert(empty-heap).push(p)`. -/
def bookInsert (b : Book) (price : Nat) (p : PartialOrder) : Book :=
  match b with
  | [] => [(price, heapPush p [])]
  | (k, l) :: rest =>
    if price < k then (price, heapPush p []) :: (k, l) :: rest
    else if price = k then (k, heapPush p l) :: rest
    else (k, l) :: bookInsert rest price p

/-- `BTreeMap::get`. -/
def lookupLevel (b : Book) (price : Nat) : Option Level :=
  (b.find? (fun kl => kl.1 == price)).map (fun kl => kl.2)

/-- `retain(|_, orders| !orders.is_empty())` (matching.rs:104-105). -/
def retainNonEmpty (b : Book) : Book := b.filter (fun kl => !kl.2.isEmpty)

/-- Local state of `match_order`: the incoming order's `remaining_amount`
and the accumulated `matches` vector. -/
structure LoopSt : Type where
  remaining : Nat
  «matches» : List PartialOrder
deriving DecidableEq, Repr

/-- The inner `while let Some(opposite_order) = price_level.pop()` loop of
`match_order` (matching.rs:136-158) at one price level.  The first list is
the remaining pop sequence of the level's heap, the second accumulates
`self_matches`.  Returns the new state, the level's final heap contents, and
whether `break 'outer` fired (in which case `self_matches` is NOT appended
back — exactly as in the source, where the `price_level.append` on line 161
is skipped). -/
def matchLevel (order : PartialOrder) (price : Nat) :
    LoopSt → Level → Level → LoopSt × Level × Bool
  | st, [], selfM => (st, selfM, false)
  | st, opp :: rest, selfM =>
    if order.signer = opp.signer then
      matchLevel order price st rest (heapPush opp selfM)
    else
      let matched_amount := min order.amount opp.amount
      let remaining' := wsub st.remaining matched_amount
      let tf := PartialOrder.take_from opp matched_amount price
      let st' : LoopSt := ⟨remaining', st.matches ++ [tf.1]⟩
      if 0 < tf.2.remaining then
        (st', heapPush tf.2 rest, true)
      else
        matchLevel order price st' rest selfM

/-- The outer `'outer: while remaining_amount > 0` loop of `match_order`
(matching.rs:131-166) over the pre-filtered price levels. -/
def matchLoop (order : PartialOrder) :
    LoopSt → List (Nat × Level) → LoopSt × List (Nat × Level)
  | st, [] => (st, [])
  | st, (price, level) :: rest =>
    if 0 < st.remaining then
      let r := matchLevel order price st (sortByOrdinal level) []
      if r.2.2 then (r.1, (price, r.2.1) :: rest)
      else
        let r2 := matchLoop order r.1 rest
        (r2.1, (price, r.2.1) :: r2.2)
    else (st, (price, level) :: rest)

/-- The matching engine state (`matching.rs::MatchingEngine`). -/
structure MatchingEngine : Type where
  ordinal : Nat
  bids : Book
  asks : Book
  «matches» : List Receipt
deriving DecidableEq, Repr

/-- `MatchingEngine::new`. -/
def MatchingEngine.new : MatchingEngine := ⟨0, [], [], []⟩

/-- `MatchingEngine::match_order` (matching.rs:122-169): matches `order`
against the given price levels, returning the receipt and the levels'
updated contents. -/
def MatchingEngine.match_order (order : PartialOrder)
    (entries : List (Nat × Level)) (ordinal : Nat) :
    Receipt × List (Nat × Level) :=
  let r := matchLoop order ⟨order.amount, []⟩ entries
  (⟨ordinal, r.1.matches⟩, r.2)

/-- `MatchingEngine::get_matched_amount` (matching.rs:112-114). -/
def MatchingEngine.get_matched_amount (receipt : Receipt) : Nat :=
  wsum (receipt.matches.map (fun m => m.amount))

/-- `MatchingEngine::process` (matching.rs:55-110).  Returns the receipt and
the updated engine. -/
def MatchingEngine.process (e : MatchingEngine) (o : Order) :
    Receipt × MatchingEngine :=
  let ordinal := wadd e.ordinal 1
  let original_amount := o.amount
  let po := o.intoPartialOrder ordinal original_amount
  match po.side with
  | Side.Buy =>
    let entries := e.asks.takeWhile (fun kl => decide (kl.1 ≤ po.price))
    let untouched := e.asks.dropWhile (fun kl => decide (kl.1 ≤ po.price))
    let r := MatchingEngine.match_order po entries ordinal
    let matched_amount := MatchingEngine.get_matched_amount r.1
    let bids' :=
      if matched_amount < original_amount then
        bookInsert e.bids po.price { po with amount := original_amount - matched_amount }
      else e.bids
    (r.1, { ordinal := ordinal, bids := retainNonEmpty bids',
            asks := retainNonEmpty (r.2 ++ untouched),
            «matches» := e.matches ++ [r.1] })
  | Side.Sell =>
    let untouched := e.bids.takeWhile (fun kl => decide (kl.1 < po.price))
    let entries := e.bids.dropWhile (fun kl => decide (kl.1 < po.price))
    let r := MatchingEngine.match_order po entries ordinal
    let matched_amount := MatchingEngine.get_matched_amount r.1
    let asks' :=
      if matched_amount < original_amount then
        bookInsert e.asks po.price { po with amount := original_amount - matched_amount }
      else e.asks
    (r.1, { ordinal := ordinal, bids := retainNonEmpty (untouched ++ r.2),
            asks := retainNonEmpty asks',
            «matches» := e.matches ++ [r.1] })

/-- `MatchingEngine::get_amount_at_price_level` (matching.rs:38-49): sums the
`amount` fields of the level at exactly that price on that side. -/
def MatchingEngine.get_amount_at_price_level (e : MatchingEngine)
    (price : Nat) (side : Side) : Nat :=
  match side with
  | Side.Buy =>
    match lookupLevel e.bids price with
    | none => 0
    | some l => wsum (l.map (fun p => p.amount))
  | Side.Sell =>
    match lookupLevel e.asks price with
    | none => 0
    | some l => wsum (l.map (fun p => p.amount))

/-- Process a whole sequence of orders starting from a fresh engine. -/
def MatchingEngine.run (os : List Order) : MatchingEngine :=
  os.foldl (fun e o => (e.process o).2) MatchingEngine.new

/-- Follows the spec's words, for comparison with
`get_amount_at_price_level`: "the sum of `remaining` across all resting
orders at that exact price on that side, or 0 if the price has no resting
orders". -/
def remainingAtPriceLevel (e : MatchingEngine) (price : Nat) (side : Side) : Nat :=
  match side with
  | Side.Buy =>
    match lookupLevel e.bids price with
    | none => 0
    | some l => (l.map (fun p => p.remaining)).sum
  | Side.Sell =>
    match lookupLevel e.asks price with
    | none => 0
    | some l => (l.map (fun p => p.remaining)).sum

/-- Instrumented replay of the matchLevel control flow which reports whether
the u64 subtraction `remaining_amount -= matched_amount` (matching.rs:146)
underflows, i.e. whether a debug build panics there.  Returns
(panicked-so-far, remaining after the level, whether `break 'outer` fired). -/
def matchLevelPan (order : PartialOrder) : Nat → Level → Bool × Nat × Bool
  | remaining, [] => (false, remaining, false)
  | remaining, opp :: rest =>
    if order.signer = opp.signer then matchLevelPan order remaining rest
    else
      let matched_amount := min order.amount opp.amount
      let pan := decide (remaining < matched_amount)
      let remaining' := wsub remaining matched_amount
      let afterRem := wsub opp.remaining matched_amount
      if 0 < afterRem then (pan, remaining', true)
      else
        let r := matchLevelPan order remaining' rest
        (pan || r.1, r.2.1, r.2.2)

/-- Instrumented replay of `match_order`'s outer loop: true iff the
subtraction at matching.rs:146 underflows somewhere during the call. -/
def matchLoopPan (order : PartialOrder) : Nat → List (Nat × Level) → Bool
  | _, [] => false
  | remaining, (_, level) :: rest =>
    if 0 < remaining then
      let r := matchLevelPan order remaining (sortByOrdinal level)
      if r.2.2 then r.1
      else r.1 || matchLoopPan order r.2.1 rest
    else false

/-- Instrumented replay of `process`: true iff the subtraction at
matching.rs:146 underflows while processing `o` against `e`. -/
def processPan (e : MatchingEngine) (o : Order) : Bool :=
  let ordinal := wadd e.ordinal 1
  let po := o.intoPartialOrder ordinal o.amount
  match po.side with
  | Side.Buy =>
    matchLoopPan po po.amount (e.asks.takeWhile (fun kl => decide (kl.1 ≤ po.price)))
  | Side.Sell =>
    matchLoopPan po po.amount (e.bids.dropWhile (fun kl => decide (kl.1 < po.price)))

/-- Whether some `process` call in the sequence hits the u64 underflow at
matching.rs:146, starting from engine `e`. -/
def runPanFrom : MatchingEngine → List Order → Bool
  | _, [] => false
  | e, o :: os => processPan e o || runPanFrom (e.process o).2 os

/-- Whether some `process` call in the sequence, starting from a fresh
engine, hits the u64 underflow at matching.rs:146. -/
def runPan (os : List Order) : Bool := runPanFrom MatchingEngine.new os

/-- The `matches` entry recorded when the incoming `order` pops resting order
`p` (matching.rs:145-153): `p` with its `remaining` decremented by
`min(order.amount, p.amount)` — the first component of `take_from`. -/
def recorded (order p : PartialOrder) : PartialOrder :=
  (PartialOrder.take_from p (min order.amount p.amount) p.price).1

/-- The split-off order pushed back onto the level at a `break`
(matching.rs:151-156) — the second component of `take_from`, with the level
key as its price. -/
def pushedBack (order : PartialOrder) (price : Nat) (p : PartialOrder) : PartialOrder :=
  (PartialOrder.take_from p (min order.amount p.amount) price).2

/-- A stored order's `remaining` is bounded by the submitted amount of the
order that was assigned this ordinal (ordinal `i` goes to the `i`-th
processed order, counting from 1). -/
def origBound (os : List Order) (p : PartialOrder) : Prop :=
  match os[p.ordinal - 1]? with
  | some o => p.remaining ≤ o.amount
  | none => False

instance instDecidableOrigBound (os : List Order) (p : PartialOrder) :
    Decidable (origBound os p) :=
  match h : os[p.ordinal - 1]? with
  | some o => decidable_of_iff (p.remaining ≤ o.amount) (by unfold origBound; rw [h])
  | none => isFalse (by unfold origBound; rw [h]; exact id)

/-- Invariant of a stored resting order at level key `k`, relative to the
processed order sequence `os`. -/
def POGood (os : List Order) (k : Nat) (p : PartialOrder) : Prop :=
  p.price = k ∧ 0 < p.amount ∧ p.amount ≤ p.remaining ∧
  1 ≤ p.ordinal ∧ p.ordinal ≤ os.length ∧ origBound os p

/-- All orders of a level satisfy the stored-order invariant. -/
def LevelGood (os : List Order) (k : Nat) (l : Level) : Prop :=
  ∀ p ∈ l, POGood os k p

/-- Invariant of one book side: strictly ascending keys, no empty level, and
every stored order good. -/
def BookGood (os : List Order) (b : Book) : Prop :=
  List.Pairwise (· < ·) (b.map Prod.fst) ∧
  ∀ kl ∈ b, kl.2 ≠ ([] : Level) ∧ LevelGood os kl.1 kl.2

/-- Reachability invariant of the engine after processing `os`. -/
def EngineInv (os : List Order) (e : MatchingEngine) : Prop :=
  e.ordinal = os.length ∧ BookGood os e.bids ∧ BookGood os e.asks

/-- The book of one side of the engine (`bids` for `Buy`, `asks` for
`Sell`), as selected by `get_amount_at_price_level`. -/
def sideBook (e : MatchingEngine) : Side → Book
  | Side.Buy => e.bids
  | Side.Sell => e.asks

/-- C1.  Counter-evidence: after `Sell 5@10` by ALICE and `Buy 2@10` by BOB,
BOB's receipt records the fill with `amount = 5` — the resting order's stored
`amount` field, which `take_from` leaves untouched — although the matched
quantity `min(incoming remaining, resting remaining) = min 2 5 = 2`.  The
claim that every fill's `amount` equals the matched quantity fails on the
code. -/
theorem claim_C1 :
    (MatchingEngine.run
        [⟨10, 5, Side.Sell, "ALICE"⟩, ⟨10, 2, Side.Buy, "BOB"⟩]).matches =
      [⟨1, []⟩, ⟨2, [⟨10, 5, 3, Side.Sell, "ALICE", 1⟩]⟩] ∧
    (⟨10, 5, 3, Side.Sell, "ALICE", 1⟩ : PartialOrder).amount ≠ min 2 5 := by
  decide

/-- C3.  Counter-evidence: after `Sell 3@10` (ALICE), `Sell 3@10` (CHARLIE),
the incoming `Buy 4@10` (BOB) produces a receipt whose matched quantities are
[3, 3], summing to 6 > 4: matching does not stop when the incoming remaining
reaches 0 (the matched quantity is `min(order.amount, ...)` with the original
amount, and the inner pop loop never rechecks the remaining). -/
theorem claim_C3 :
    (MatchingEngine.run
        [⟨10, 3, Side.Sell, "ALICE"⟩, ⟨10, 3, Side.Sell, "CHARLIE"⟩,
         ⟨10, 4, Side.Buy, "BOB"⟩]).matches =
      [⟨1, []⟩, ⟨2, []⟩,
       ⟨3, [⟨10, 3, 0, Side.Sell, "ALICE", 1⟩,
            ⟨10, 3, 0, Side.Sell, "CHARLIE", 2⟩]⟩] ∧
    MatchingEngine.get_matched_amount
      ⟨3, [⟨10, 3, 0, Side.Sell, "ALICE", 1⟩,
           ⟨10, 3, 0, Side.Sell, "CHARLIE", 2⟩]⟩ = 6 ∧
    ¬ (6 ≤ 4) := by
  decide

/-- C4.  Counter-evidence: on the same three-order sequence the subtraction
`remaining_amount -= matched_amount` at matching.rs:146 executes `1 - 3` on
u64 — a panic in a debug build (so `process` is not total) and a wrap-around
in a release build. -/
theorem claim_C4 :
    runPan [⟨10, 3, Side.Sell, "ALICE"⟩, ⟨10, 3, Side.Sell, "CHARLIE"⟩,
            ⟨10, 4, Side.Buy, "BOB"⟩] = true := by
  decide

/-- C5.  Counter-evidence: with resting bids at 12 (BOB) and 15 (CHARLIE), an
incoming `Sell 2@10` (ALICE) fills the bid at 12 before the bid at 15: the
code iterates `bids.range_mut(P..=MAX)` in ascending key order, not from the
highest bid downward as the claim requires. -/
theorem claim_C5 :
    ((MatchingEngine.run
        [⟨12, 1, Side.Buy, "BOB"⟩, ⟨15, 1, Side.Buy, "CHARLIE"⟩,
         ⟨10, 2, Side.Sell, "ALICE"⟩]).matches.map
      (fun r => r.matches.map (fun m => m.price))) = [[], [], [12, 15]] ∧
    (12 : Nat) < 15 := by
  decide

/-- C6.  Counter-evidence: after `Sell 1@10` (ALICE), `Sell 5@10` (BOB), the
incoming `Buy 2@10` by ALICE pops her own resting sell into `self_matches`,
then partially fills BOB and takes the `break 'outer` path (matching.rs:156),
which skips the re-insertion on line 161: ALICE's resting sell (ordinal 1)
vanishes from the book — the final ask side holds only BOB's order. -/
theorem claim_C6 :
    (MatchingEngine.run
        [⟨10, 1, Side.Sell, "ALICE"⟩, ⟨10, 5, Side.Sell, "BOB"⟩,
         ⟨10, 2, Side.Buy, "ALICE"⟩]).asks =
      [(10, [⟨10, 3, 3, Side.Sell, "BOB", 2⟩])] ∧
    (MatchingEngine.run
        [⟨10, 1, Side.Sell, "ALICE"⟩, ⟨10, 5, Side.Sell, "BOB"⟩,
         ⟨10, 2, Side.Buy, "ALICE"⟩]).bids = [] := by
  decide

/-- C9, counterexample.  At the reachable state after `Buy 5@10` (ALICE) and
`Sell 8@10` (BOB), the stored ask has `amount = 3` and `remaining = 8`, so
`get_amount_at_price_level 10 Sell` returns 3 — the sum of the `amount`
fields — while the sum of the `remaining` fields the claim speaks of is 8. -/
theorem claim_C9_counterexample :
    MatchingEngine.get_amount_at_price_level
      (MatchingEngine.run [⟨10, 5, Side.Buy, "ALICE"⟩, ⟨10, 8, Side.Sell, "BOB"⟩])
      10 Side.Sell = 3 ∧
    remainingAtPriceLevel
      (MatchingEngine.run [⟨10, 5, Side.Buy, "ALICE"⟩, ⟨10, 8, Side.Sell, "BOB"⟩])
      10 Side.Sell = 8 ∧
    (3 : Nat) ≠ 8 := by
  decide

theorem mem_insertByOrdinal {q p : PartialOrder} {l : Level} :
    q ∈ insertByOrdinal p l ↔ q = p ∨ q ∈ l := by
  induction l with
  | nil => simp [insertByOrdinal]
  | cons a l ih =>
    by_cases h : p.ordinal ≤ a.ordinal
    · simp [insertByOrdinal, h]
    · simp [insertByOrdinal, h, ih]
      tauto

theorem sorted_insertByOrdinal {p : PartialOrder} {l : Level}
    (h : List.Pairwise (fun a b => a.ordinal ≤ b.ordinal) l) :
    List.Pairwise (fun a b => a.ordinal ≤ b.ordinal) (insertByOrdinal p l) := by
  induction l with
  | nil => simp [insertByOrdinal]
  | cons a l ih =>
    rw [List.pairwise_cons] at h
    by_cases hpa : p.ordinal ≤ a.ordinal
    · rw [insertByOrdinal]
      simp only [if_pos hpa, List.pairwise_cons]
      refine ⟨?_, ?_, h.2⟩
      · intro x hx
        rcases List.mem_cons.mp hx with rfl | hx
        · exact hpa
        · exact hpa.trans (h.1 x hx)
      · exact h.1
    · have hap : a.ordinal ≤ p.ordinal := Nat.le_of_not_le hpa
      rw [insertByOrdinal]
      simp only [if_neg hpa, List.pairwise_cons]
      refine ⟨?_, ih h.2⟩
      intro x hx
      rcases mem_insertByOrdinal.mp hx with rfl | hx
      · exact hap
      · exact h.1 x hx

theorem mem_sortByOrdinal {q : PartialOrder} {l : Level} :
    q ∈ sortByOrdinal l ↔ q ∈ l := by
  induction l with
  | nil => simp [sortByOrdinal]
  | cons a l ih => simp [sortByOrdinal, mem_insertByOrdinal, ih]

theorem sorted_sortByOrdinal (l : Level) :
    List.Pairwise (fun a b => a.ordinal ≤ b.ordinal) (sortByOrdinal l) := by
  induction l with
  | nil => simp [sortByOrdinal]
  | cons a l ih => exact sorted_insertByOrdinal ih

/-- C2.  Popping a price-level queue (`BinaryHeap::pop` through the
`Reverse(ordinal)` comparison of `models.rs`) always yields a stored order
whose `ordinal` is minimal in the queue, whatever the other fields and the
insertion order. -/
theorem claim_C2 (l : Level) (p : PartialOrder) (r : Level)
    (h : heapPop l = some (p, r)) :
    p ∈ l ∧ ∀ x ∈ l, p.ordinal ≤ x.ordinal := by
  unfold heapPop at h
  cases hs : sortByOrdinal l with
  | nil => rw [hs] at h; exact absurd h (by simp)
  | cons a t =>
    rw [hs] at h
    have hap : a = p := by
      have := Option.some.inj h
      exact congrArg Prod.fst this
    subst hap
    constructor
    · exact mem_sortByOrdinal.mp (hs ▸ List.mem_cons_self a t)
    · intro x hx
      have hx' : x ∈ a :: t := hs ▸ mem_sortByOrdinal.mpr hx
      rcases List.mem_cons.mp hx' with rfl | hxt
      · exact Nat.le_refl _
      · have hsorted := sorted_sortByOrdinal l
        rw [hs, List.pairwise_cons] at hsorted
        exact hsorted.1 x hxt

/-- Witness for C2, mirroring the repo's own heap unit test: two stored
orders that differ only in `ordinal` (2 inserted first, then 1); the pop
yields the order with ordinal 1. -/
theorem claim_C2_witness :
    (⟨0, 0, 0, Side.Buy, "", 1⟩ : PartialOrder) ∈
      ([⟨0, 0, 0, Side.Buy, "", 2⟩, ⟨0, 0, 0, Side.Buy, "", 1⟩] : Level) ∧
    ∀ x ∈ ([⟨0, 0, 0, Side.Buy, "", 2⟩, ⟨0, 0, 0, Side.Buy, "", 1⟩] : Level),
      (⟨0, 0, 0, Side.Buy, "", 1⟩ : PartialOrder).ordinal ≤ x.ordinal :=
  claim_C2 _ _ ([⟨0, 0, 0, Side.Buy, "", 2⟩] : Level) (by decide)

theorem matchLoop_zero {order : PartialOrder} {ms : List PartialOrder}
    (es : List (Nat × Level)) :
    matchLoop order ⟨0, ms⟩ es = (⟨0, ms⟩, es) := by
  cases es with
  | nil => rfl
  | cons kl rest =>
    obtain ⟨k, lv⟩ := kl
    simp [matchLoop]

theorem retain_eq_self {b : Book} (h : ∀ kl ∈ b, kl.2 ≠ ([] : Level)) :
    retainNonEmpty b = b := by
  unfold retainNonEmpty
  rw [List.filter_eq_self]
  intro kl hkl
  simpa using h kl hkl

/-- C10.  Processing an order with `amount = 0` leaves both book sides
unchanged (nothing matches, and the guard `matched_amount < original_amount`
fails, so nothing is stored), while the ordinal counter is bumped and the
empty-matches receipt carrying it is appended to the match log. -/
theorem claim_C10 (e : MatchingEngine) (o : Order) (h0 : o.amount = 0)
    (hb : ∀ kl ∈ e.bids, kl.2 ≠ ([] : Level))
    (ha : ∀ kl ∈ e.asks, kl.2 ≠ ([] : Level)) :
    e.process o =
      (⟨wadd e.ordinal 1, []⟩,
       ⟨wadd e.ordinal 1, e.bids, e.asks, e.matches ++ [⟨wadd e.ordinal 1, []⟩]⟩) := by
  obtain ⟨pr, am, sd, sg⟩ := o
  simp only at h0
  subst h0
  cases sd <;>
  simp [MatchingEngine.process, Order.intoPartialOrder, MatchingEngine.match_order,
        matchLoop_zero, MatchingEngine.get_matched_amount, wsum,
        retain_eq_self hb, retain_eq_self ha, List.takeWhile_append_dropWhile]

/-- Witness for C10 at the fresh engine and a zero-amount buy order. -/
theorem claim_C10_witness :
    MatchingEngine.process MatchingEngine.new ⟨10, 0, Side.Buy, "ALICE"⟩ =
      (⟨1, []⟩, ⟨1, [], [], [⟨1, []⟩]⟩) :=
  claim_C10 MatchingEngine.new ⟨10, 0, Side.Buy, "ALICE"⟩ rfl (by decide) (by decide)

theorem wadd_one_of_lt {n : Nat} (h : n + 1 < U64) : wadd n 1 = n + 1 := by
  unfold wadd
  exact Nat.mod_eq_of_lt h

theorem wsub_eq_of_le {a b : Nat} (hba : b ≤ a) (ha : a < U64) : wsub a b = a - b := by
  unfold wsub
  have h1 : a + U64 - b = (a - b) + U64 := by omega
  rw [h1, Nat.add_mod_right]
  exact Nat.mod_eq_of_lt (by omega)

theorem origBound_remaining_lt {os : List Order} {p : PartialOrder}
    (hv : ∀ o ∈ os, o.amount < U64) (h : origBound os p) : p.remaining < U64 := by
  unfold origBound at h
  cases hg : os[p.ordinal - 1]? with
  | none => rw [hg] at h; exact h.elim
  | some o => rw [hg] at h; exact Nat.lt_of_le_of_lt h (hv o (List.getElem?_mem hg))

theorem origBound_of_le {os : List Order} {p q : PartialOrder}
    (hord : q.ordinal = p.ordinal) (hrem : q.remaining ≤ p.remaining)
    (h : origBound os p) : origBound os q := by
  unfold origBound at *
  rw [hord]
  revert h
  cases os[p.ordinal - 1]? with
  | none => exact id
  | some o => exact fun h => hrem.trans h

theorem origBound_append {os : List Order} {o : Order} {p : PartialOrder}
    (h : origBound os p) : origBound (os ++ [o]) p := by
  unfold origBound at *
  cases hg : os[p.ordinal - 1]? with
  | none => rw [hg] at h; exact h.elim
  | some o' =>
    rw [hg] at h
    have hlt : p.ordinal - 1 < os.length := (List.getElem?_eq_some.mp hg).1
    have hgg : (os ++ [o])[p.ordinal - 1]? = some o' := by
      rw [List.getElem?_append, if_pos hlt, hg]
    rw [hgg]
    exact h

theorem POGood_append {os : List Order} {o : Order} {k : Nat} {p : PartialOrder}
    (h : POGood os k p) : POGood (os ++ [o]) k p := by
  obtain ⟨h1, h2, h3, h4, h5, h6⟩ := h
  refine ⟨h1, h2, h3, h4, ?_, origBound_append h6⟩
  simp only [List.length_append, List.length_singleton]
  omega

theorem BookGood_append {os : List Order} {o : Order} {b : Book}
    (h : BookGood os b) : BookGood (os ++ [o]) b :=
  ⟨h.1, fun kl hkl =>
    ⟨(h.2 kl hkl).1, fun p hp => POGood_append ((h.2 kl hkl).2 p hp)⟩⟩

theorem pushedBack_eq (order : PartialOrder) (k : Nat) (p : PartialOrder) :
    pushedBack order k p =
      { p with remaining := wsub p.remaining (min order.amount p.amount),
               amount := wsub p.remaining (min order.amount p.amount),
               price := k } := rfl

theorem POGood_pushedBack {os : List Order} {k : Nat} {order p : PartialOrder}
    (hv : ∀ o ∈ os, o.amount < U64) (hp : POGood os k p)
    (hpos : 0 < (pushedBack order k p).remaining) :
    POGood os k (pushedBack order k p) := by
  obtain ⟨h1, h2, h3, h4, h5, h6⟩ := hp
  have hlt : p.remaining < U64 := origBound_remaining_lt hv h6
  have ht : min order.amount p.amount ≤ p.remaining :=
    Nat.le_trans (Nat.min_le_right _ _) h3
  have hw : wsub p.remaining (min order.amount p.amount)
      = p.remaining - min order.amount p.amount := wsub_eq_of_le ht hlt
  have hrem : (pushedBack order k p).remaining ≤ p.remaining := by
    show wsub p.remaining (min order.amount p.amount) ≤ p.remaining
    rw [hw]
    exact Nat.sub_le _ _
  exact ⟨rfl, hpos, Nat.le_refl _, h4, h5, @origBound_of_le os p _ rfl hrem h6⟩

theorem matchLevel_level_mem (order : PartialOrder) (price : Nat) :
    ∀ (lvl : Level) (st : LoopSt) (selfM : Level) (q : PartialOrder),
      q ∈ (matchLevel order price st lvl selfM).2.1 →
      q ∈ lvl ∨ q ∈ selfM ∨
        ∃ p ∈ lvl, q = pushedBack order price p ∧ 0 < q.remaining := by
  intro lvl
  induction lvl with
  | nil =>
    intro st selfM q hq
    simp only [matchLevel] at hq
    exact Or.inr (Or.inl hq)
  | cons opp rest ih =>
    intro st selfM q hq
    by_cases hsig : order.signer = opp.signer
    · simp only [matchLevel, if_pos hsig] at hq
      rcases ih st (heapPush opp selfM) q hq with h | h | ⟨p, hp, hpb⟩
      · exact Or.inl (List.mem_cons_of_mem _ h)
      · rcases List.mem_cons.mp h with rfl | h
        · exact Or.inl (List.mem_cons_self _ _)
        · exact Or.inr (Or.inl h)
      · exact Or.inr (Or.inr ⟨p, List.mem_cons_of_mem _ hp, hpb⟩)
    · simp only [matchLevel, if_neg hsig] at hq
      split at hq
      · rcases List.mem_cons.mp hq with rfl | hq
        · refine Or.inr (Or.inr ⟨opp, List.mem_cons_self _ _, rfl, ?_⟩)
          assumption
        · exact Or.inl (List.mem_cons_of_mem _ hq)
      · rcases ih _ selfM q hq with h | h | ⟨p, hp, hpb⟩
        · exact Or.inl (List.mem_cons_of_mem _ h)
        · exact Or.inr (Or.inl h)
        · exact Or.inr (Or.inr ⟨p, List.mem_cons_of_mem _ hp, hpb⟩)

theorem matchLevel_matches_mem (order : PartialOrder) (price : Nat) :
    ∀ (lvl : Level) (st : LoopSt) (selfM : Level) (m : PartialOrder),
      m ∈ (matchLevel order price st lvl selfM).1.matches →
      m ∈ st.matches ∨ ∃ p ∈ lvl, m = recorded order p := by
  intro lvl
  induction lvl with
  | nil =>
    intro st selfM m hm
    simp only [matchLevel] at hm
    exact Or.inl hm
  | cons opp rest ih =>
    intro st selfM m hm
    by_cases hsig : order.signer = opp.signer
    · simp only [matchLevel, if_pos hsig] at hm
      rcases ih st (heapPush opp selfM) m hm with h | ⟨p, hp, hr⟩
      · exact Or.inl h
      · exact Or.inr ⟨p, List.mem_cons_of_mem _ hp, hr⟩
    · simp only [matchLevel, if_neg hsig] at hm
      split at hm
      · rcases List.mem_append.mp hm with h | h
        · exact Or.inl h
        · rcases List.mem_singleton.mp h with rfl
          exact Or.inr ⟨opp, List.mem_cons_self _ _, rfl⟩
      · rcases ih _ selfM m hm with h | ⟨p, hp, hr⟩
        · rcases List.mem_append.mp h with h | h
          · exact Or.inl h
          · rcases List.mem_singleton.mp h with rfl
            exact Or.inr ⟨opp, List.mem_cons_self _ _, rfl⟩
        · exact Or.inr ⟨p, List.mem_cons_of_mem _ hp, hr⟩

theorem matchLoop_keys (order : PartialOrder) :
    ∀ (entries : List (Nat × Level)) (st : LoopSt),
      (matchLoop order st entries).2.map Prod.fst = entries.map Prod.fst := by
  intro entries
  induction entries with
  | nil => intro st; rfl
  | cons kl rest ih =>
    intro st
    obtain ⟨price, level⟩ := kl
    by_cases h : 0 < st.remaining
    · simp only [matchLoop, if_pos h]
      split
      · simp
      · simp [ih]
    · simp [matchLoop, if_neg h]

theorem matchLoop_matches_mem (order : PartialOrder) :
    ∀ (entries : List (Nat × Level)) (st : LoopSt) (m : PartialOrder),
      m ∈ (matchLoop order st entries).1.matches →
      m ∈ st.matches ∨ ∃ kl ∈ entries, ∃ p ∈ kl.2, m = recorded order p := by
  intro entries
  induction entries with
  | nil =>
    intro st m hm
    exact Or.inl hm
  | cons kl rest ih =>
    intro st m hm
    obtain ⟨price, level⟩ := kl
    by_cases h : 0 < st.remaining
    · simp only [matchLoop, if_pos h] at hm
      split at hm
      · rcases matchLevel_matches_mem order price _ st [] m hm with h1 | ⟨p, hp, hr⟩
        · exact Or.inl h1
        · exact Or.inr ⟨(price, level), List.mem_cons_self _ _,
            p, mem_sortByOrdinal.mp hp, hr⟩
      · rcases ih _ m hm with h1 | ⟨kl', hkl', p, hp, hr⟩
        · rcases matchLevel_matches_mem order price _ st [] m h1 with h2 | ⟨p, hp, hr⟩
          · exact Or.inl h2
          · exact Or.inr ⟨(price, level), List.mem_cons_self _ _,
              p, mem_sortByOrdinal.mp hp, hr⟩
        · exact Or.inr ⟨kl', List.mem_cons_of_mem _ hkl', p, hp, hr⟩
    · simp only [matchLoop, if_neg h] at hm
      exact Or.inl hm

theorem matchLoop_levels_mem (order : PartialOrder) :
    ∀ (entries : List (Nat × Level)) (st : LoopSt) (kl' : Nat × Level),
      kl' ∈ (matchLoop order st entries).2 →
      ∃ lvl, (kl'.1, lvl) ∈ entries ∧
        ∀ q ∈ kl'.2, q ∈ lvl ∨
          ∃ p ∈ lvl, q = pushedBack order kl'.1 p ∧ 0 < q.remaining := by
  intro entries
  induction entries with
  | nil =>
    intro st kl' hkl'
    simp [matchLoop] at hkl'
  | cons kl rest ih =>
    intro st kl' hkl'
    obtain ⟨price, level⟩ := kl
    by_cases h : 0 < st.remaining
    · simp only [matchLoop, if_pos h] at hkl'
      have headCase : ∀ lvlOut : Level,
          (lvlOut = (matchLevel order price st (sortByOrdinal level) []).2.1) →
          kl' = (price, lvlOut) →
          ∃ lvl, (kl'.1, lvl) ∈ (price, level) :: rest ∧
            ∀ q ∈ kl'.2, q ∈ lvl ∨
              ∃ p ∈ lvl, q = pushedBack order kl'.1 p ∧ 0 < q.remaining := by
        intro lvlOut hdef hkl'
        subst hkl'
        refine ⟨level, List.mem_cons_self _ _, ?_⟩
        intro q hq
        rw [hdef] at hq
        rcases matchLevel_level_mem order price (sortByOrdinal level) st [] q hq with
          h1 | h1 | ⟨p, hp, hpb, hpos⟩
        · exact Or.inl (mem_sortByOrdinal.mp h1)
        · exact absurd h1 (List.not_mem_nil q)
        · exact Or.inr ⟨p, mem_sortByOrdinal.mp hp, hpb, hpos⟩
      split at hkl'
      · rcases List.mem_cons.mp hkl' with h1 | h1
        · exact headCase _ rfl h1
        · refine ⟨kl'.2, List.mem_cons_of_mem _ ?_, fun q hq => Or.inl hq⟩
          rw [Prod.mk.eta]
          exact h1
      · rcases List.mem_cons.mp hkl' with h1 | h1
        · exact headCase _ rfl h1
        · obtain ⟨lvl, hlvl, hchar⟩ := ih _ kl' h1
          exact ⟨lvl, List.mem_cons_of_mem _ hlvl, hchar⟩
    · simp only [matchLoop, if_neg h] at hkl'
      refine ⟨kl'.2, ?_, fun q hq => Or.inl hq⟩
      rw [Prod.mk.eta]
      exact hkl'

theorem matchLoop_good {os : List Order} {order : PartialOrder}
    (hv : ∀ o ∈ os, o.amount < U64) {entries : List (Nat × Level)} {st : LoopSt}
    (hgood : ∀ kl ∈ entries, LevelGood os kl.1 kl.2) :
    ∀ kl ∈ (matchLoop order st entries).2, LevelGood os kl.1 kl.2 := by
  intro kl hkl p hp
  obtain ⟨lvl, hlvl, hchar⟩ := matchLoop_levels_mem order entries st kl hkl
  have hlg : LevelGood os kl.1 lvl := hgood (kl.1, lvl) hlvl
  rcases hchar p hp with h | ⟨p0, hp0, hpb, hpos⟩
  · exact hlg p h
  · subst hpb
    exact POGood_pushedBack hv (hlg p0 hp0) hpos

theorem bookInsert_mem {b : Book} {k : Nat} {p : PartialOrder} :
    ∀ kl ∈ bookInsert b k p,
      kl ∈ b ∨ (kl.1 = k ∧
        (kl.2 = [p] ∨ ∃ l0, (k, l0) ∈ b ∧ kl.2 = p :: l0)) := by
  induction b with
  | nil =>
    intro kl hkl
    simp only [bookInsert, heapPush, List.mem_singleton] at hkl
    subst hkl
    exact Or.inr ⟨rfl, Or.inl rfl⟩
  | cons kl0 rest ih =>
    obtain ⟨k0, l0⟩ := kl0
    intro kl hkl
    by_cases h1 : k < k0
    · simp only [bookInsert, if_pos h1] at hkl
      rcases List.mem_cons.mp hkl with rfl | h
      · exact Or.inr ⟨rfl, Or.inl rfl⟩
      · exact Or.inl h
    · by_cases h2 : k = k0
      · simp only [bookInsert, if_neg h1, if_pos h2] at hkl
        rcases List.mem_cons.mp hkl with rfl | h
        · refine Or.inr ⟨h2.symm, Or.inr ⟨l0, ?_, rfl⟩⟩
          rw [h2]
          exact List.mem_cons_self _ _
        · exact Or.inl (List.mem_cons_of_mem _ h)
      · simp only [bookInsert, if_neg h1, if_neg h2] at hkl
        rcases List.mem_cons.mp hkl with rfl | h
        · exact Or.inl (List.mem_cons_self _ _)
        · rcases ih kl h with h3 | ⟨h3, h4⟩
          · exact Or.inl (List.mem_cons_of_mem _ h3)
          · refine Or.inr ⟨h3, ?_⟩
            rcases h4 with h4 | ⟨l1, hl1, h4⟩
            · exact Or.inl h4
            · exact Or.inr ⟨l1, List.mem_cons_of_mem _ hl1, h4⟩

theorem bookInsert_key_cases {b : Book} {k : Nat} {p : PartialOrder} :
    ∀ x ∈ (bookInsert b k p).map Prod.fst, x = k ∨ x ∈ b.map Prod.fst := by
  intro x hx
  obtain ⟨kl, hkl, rfl⟩ := List.mem_map.mp hx
  rcases bookInsert_mem kl hkl with h | ⟨h, -⟩
  · exact Or.inr (List.mem_map_of_mem _ h)
  · exact Or.inl h

theorem bookInsert_sorted {b : Book} {k : Nat} {p : PartialOrder}
    (h : List.Pairwise (· < ·) (b.map Prod.fst)) :
    List.Pairwise (· < ·) ((bookInsert b k p).map Prod.fst) := by
  induction b with
  | nil => simp [bookInsert]
  | cons kl0 rest ih =>
    obtain ⟨k0, l0⟩ := kl0
    rw [List.map_cons, List.pairwise_cons] at h
    by_cases h1 : k < k0
    · simp only [bookInsert, if_pos h1, List.map_cons, List.pairwise_cons]
      refine ⟨?_, h.1, h.2⟩
      intro x hx
      rcases List.mem_cons.mp hx with rfl | hx
      · exact h1
      · exact h1.trans (h.1 x hx)
    · by_cases h2 : k = k0
      · simp only [bookInsert, if_neg h1, if_pos h2, List.map_cons, List.pairwise_cons]
        exact ⟨h.1, h.2⟩
      · have h3 : k0 < k := by omega
        simp only [bookInsert, if_neg h1, if_neg h2, List.map_cons, List.pairwise_cons]
        refine ⟨?_, ih h.2⟩
        intro x hx
        rcases bookInsert_key_cases x hx with rfl | hx'
        · exact h3
        · exact h.1 x hx'

theorem bookInsert_levelGood {os : List Order} {b : Book} {k : Nat} {p : PartialOrder}
    (hb : ∀ kl ∈ b, kl.2 ≠ ([] : Level) ∧ LevelGood os kl.1 kl.2)
    (hp : POGood os k p) :
    ∀ kl ∈ bookInsert b k p, kl.2 ≠ ([] : Level) ∧ LevelGood os kl.1 kl.2 := by
  intro kl hkl
  rcases bookInsert_mem kl hkl with h | ⟨hk, hcase⟩
  · exact hb kl h
  · rcases hcase with h2 | ⟨l0, hl0, h2⟩
    · refine ⟨by rw [h2]; exact List.cons_ne_nil _ _, ?_⟩
      intro q hq
      rw [h2] at hq
      rcases List.mem_singleton.mp hq with rfl
      rw [hk]
      exact hp
    · refine ⟨by rw [h2]; exact List.cons_ne_nil _ _, ?_⟩
      intro q hq
      rw [h2] at hq
      rw [hk]
      rcases List.mem_cons.mp hq with rfl | hq
      · exact hp
      · exact (hb (k, l0) hl0).2 q hq

theorem retain_bookGood {os : List Order} {b : Book}
    (hs : List.Pairwise (· < ·) (b.map Prod.fst))
    (h : ∀ kl ∈ b, LevelGood os kl.1 kl.2) : BookGood os (retainNonEmpty b) := by
  constructor
  · exact List.Pairwise.sublist (List.Sublist.map _ (List.filter_sublist _)) hs
  · intro kl hkl
    have hm := List.mem_filter.mp hkl
    refine ⟨?_, h kl hm.1⟩
    simpa using hm.2

theorem mem_dropWhile_keys_ge {P : Nat} :
    ∀ {b : Book}, List.Pairwise (· < ·) (b.map Prod.fst) →
      ∀ kl ∈ b.dropWhile (fun x => decide (x.1 < P)), P ≤ kl.1 := by
  intro b
  induction b with
  | nil =>
    intro _ kl hkl
    simp at hkl
  | cons kl0 rest ih =>
    intro hs kl hkl
    obtain ⟨k0, l0⟩ := kl0
    rw [List.map_cons, List.pairwise_cons] at hs
    rw [List.dropWhile_cons] at hkl
    by_cases h : k0 < P
    · simp only [decide_eq_true_eq, if_pos h] at hkl
      exact ih hs.2 kl hkl
    · simp only [decide_eq_true_eq, if_neg h] at hkl
      rcases List.mem_cons.mp hkl with rfl | hkl
      · omega
      · have hlt : k0 < kl.1 := hs.1 kl.1 (List.mem_map_of_mem Prod.fst hkl)
        omega

theorem process_ordinal (e : MatchingEngine) (o : Order) :
    (e.process o).2.ordinal = wadd e.ordinal 1 := by
  obtain ⟨pr, am, sd, sg⟩ := o
  cases sd <;> rfl

theorem process_receipt_eq (e : MatchingEngine) (o : Order) :
    (e.process o).1 = ⟨wadd e.ordinal 1, (e.process o).1.matches⟩ := by
  obtain ⟨pr, am, sd, sg⟩ := o
  cases sd <;> rfl

theorem process_matches_log (e : MatchingEngine) (o : Order) :
    (e.process o).2.matches = e.matches ++ [(e.process o).1] := by
  obtain ⟨pr, am, sd, sg⟩ := o
  cases sd <;> rfl

theorem process_bids_buy (e : MatchingEngine) (pr am : Nat) (sg : String) :
    (e.process ⟨pr, am, Side.Buy, sg⟩).2.bids =
      retainNonEmpty
        (if MatchingEngine.get_matched_amount (e.process ⟨pr, am, Side.Buy, sg⟩).1 < am
         then bookInsert e.bids pr
           ⟨pr, am - MatchingEngine.get_matched_amount (e.process ⟨pr, am, Side.Buy, sg⟩).1,
            am, Side.Buy, sg, wadd e.ordinal 1⟩
         else e.bids) := rfl

theorem process_asks_buy (e : MatchingEngine) (pr am : Nat) (sg : String) :
    (e.process ⟨pr, am, Side.Buy, sg⟩).2.asks =
      retainNonEmpty
        ((matchLoop ⟨pr, am, am, Side.Buy, sg, wadd e.ordinal 1⟩ ⟨am, []⟩
            (e.asks.takeWhile (fun kl => decide (kl.1 ≤ pr)))).2
         ++ e.asks.dropWhile (fun kl => decide (kl.1 ≤ pr))) := rfl

theorem process_matches_buy (e : MatchingEngine) (pr am : Nat) (sg : String) :
    (e.process ⟨pr, am, Side.Buy, sg⟩).1.matches =
      (matchLoop ⟨pr, am, am, Side.Buy, sg, wadd e.ordinal 1⟩ ⟨am, []⟩
        (e.asks.takeWhile (fun kl => decide (kl.1 ≤ pr)))).1.matches := rfl

theorem process_asks_sell (e : MatchingEngine) (pr am : Nat) (sg : String) :
    (e.process ⟨pr, am, Side.Sell, sg⟩).2.asks =
      retainNonEmpty
        (if MatchingEngine.get_matched_amount (e.process ⟨pr, am, Side.Sell, sg⟩).1 < am
         then bookInsert e.asks pr
           ⟨pr, am - MatchingEngine.get_matched_amount (e.process ⟨pr, am, Side.Sell, sg⟩).1,
            am, Side.Sell, sg, wadd e.ordinal 1⟩
         else e.asks) := rfl

theorem process_bids_sell (e : MatchingEngine) (pr am : Nat) (sg : String) :
    (e.process ⟨pr, am, Side.Sell, sg⟩).2.bids =
      retainNonEmpty
        (e.bids.takeWhile (fun kl => decide (kl.1 < pr)) ++
         (matchLoop ⟨pr, am, am, Side.Sell, sg, wadd e.ordinal 1⟩ ⟨am, []⟩
            (e.bids.dropWhile (fun kl => decide (kl.1 < pr)))).2) := rfl

theorem process_matches_sell (e : MatchingEngine) (pr am : Nat) (sg : String) :
    (e.process ⟨pr, am, Side.Sell, sg⟩).1.matches =
      (matchLoop ⟨pr, am, am, Side.Sell, sg, wadd e.ordinal 1⟩ ⟨am, []⟩
        (e.bids.dropWhile (fun kl => decide (kl.1 < pr)))).1.matches := rfl

theorem run_append (os : List Order) (o : Order) :
    MatchingEngine.run (os ++ [o]) = ((MatchingEngine.run os).process o).2 := by
  unfold MatchingEngine.run
  rw [List.foldl_append]
  rfl

theorem POGood_fresh {os : List Order} {pr am matched : Nat} {sd : Side} {sg : String}
    (hm : matched < am) :
    POGood (os ++ [⟨pr, am, sd, sg⟩]) pr
      ⟨pr, am - matched, am, sd, sg, os.length + 1⟩ := by
  refine ⟨rfl, ?_, ?_, ?_, ?_, ?_⟩
  · show 0 < am - matched
    omega
  · show am - matched ≤ am
    omega
  · show 1 ≤ os.length + 1
    omega
  · show os.length + 1 ≤ (os ++ [(⟨pr, am, sd, sg⟩ : Order)]).length
    simp
  · unfold origBound
    rw [show (⟨pr, am - matched, am, sd, sg, os.length + 1⟩ : PartialOrder).ordinal - 1
          = os.length from rfl]
    rw [List.getElem?_concat_length]

theorem process_inv {os : List Order} {e : MatchingEngine} {o : Order}
    (hlen : os.length + 1 < U64)
    (hv : ∀ o' ∈ os ++ [o], o'.amount < U64)
    (h : EngineInv os e) : EngineInv (os ++ [o]) (e.process o).2 := by
  obtain ⟨hord, hbids, hasks⟩ := h
  obtain ⟨pr, am, sd, sg⟩ := o
  have hbids' := BookGood_append (o := ⟨pr, am, sd, sg⟩) hbids
  have hasks' := BookGood_append (o := ⟨pr, am, sd, sg⟩) hasks
  cases sd with
  | Buy =>
    refine ⟨?_, ?_, ?_⟩
    · rw [process_ordinal, hord, wadd_one_of_lt hlen]
      simp
    · rw [process_bids_buy, hord, wadd_one_of_lt hlen]
      by_cases hm :
        MatchingEngine.get_matched_amount
          (e.process ⟨pr, am, Side.Buy, sg⟩).1 < am
      · rw [if_pos hm]
        refine retain_bookGood (bookInsert_sorted hbids'.1) ?_
        intro kl hkl
        exact (bookInsert_levelGood hbids'.2 (POGood_fresh hm) kl hkl).2
      · rw [if_neg hm]
        exact retain_bookGood hbids'.1 (fun kl hkl => (hbids'.2 kl hkl).2)
    · rw [process_asks_buy]
      refine retain_bookGood ?_ ?_
      · rw [List.map_append, matchLoop_keys, ← List.map_append,
            List.takeWhile_append_dropWhile]
        exact hasks'.1
      · intro kl hkl
        rcases List.mem_append.mp hkl with hkl | hkl
        · refine matchLoop_good hv ?_ kl hkl
          intro kl0 hkl0
          exact (hasks'.2 kl0 ((List.takeWhile_sublist _).subset hkl0)).2
        · exact (hasks'.2 kl ((List.dropWhile_sublist _).subset hkl)).2
  | Sell =>
    refine ⟨?_, ?_, ?_⟩
    · rw [process_ordinal, hord, wadd_one_of_lt hlen]
      simp
    · rw [process_bids_sell]
      refine retain_bookGood ?_ ?_
      · rw [List.map_append, matchLoop_keys, ← List.map_append,
            List.takeWhile_append_dropWhile]
        exact hbids'.1
      · intro kl hkl
        rcases List.mem_append.mp hkl with hkl | hkl
        · exact (hbids'.2 kl ((List.takeWhile_sublist _).subset hkl)).2
        · refine matchLoop_good hv ?_ kl hkl
          intro kl0 hkl0
          exact (hbids'.2 kl0 ((List.dropWhile_sublist _).subset hkl0)).2
    · rw [process_asks_sell, hord, wadd_one_of_lt hlen]
      by_cases hm :
        MatchingEngine.get_matched_amount
          (e.process ⟨pr, am, Side.Sell, sg⟩).1 < am
      · rw [if_pos hm]
        refine retain_bookGood (bookInsert_sorted hasks'.1) ?_
        intro kl hkl
        exact (bookInsert_levelGood hasks'.2 (POGood_fresh hm) kl hkl).2
      · rw [if_neg hm]
        exact retain_bookGood hasks'.1 (fun kl hkl => (hasks'.2 kl hkl).2)

theorem run_inv (os : List Order) :
    os.length < U64 → (∀ o ∈ os, o.amount < U64) →
    EngineInv os (MatchingEngine.run os) := by
  induction os using List.reverseRecOn with
  | nil =>
    intro _ _
    refine ⟨rfl, ⟨List.Pairwise.nil, ?_⟩, ⟨List.Pairwise.nil, ?_⟩⟩ <;>
      exact fun kl h => absurd h (List.not_mem_nil _)
  | append_singleton os o ih =>
    intro hlen hv
    have hlen1 : os.length + 1 < U64 := by
      simpa using hlen
    have hv' : ∀ o' ∈ os, o'.amount < U64 :=
      fun o' h' => hv o' (List.mem_append.mpr (Or.inl h'))
    rw [run_append]
    exact process_inv hlen1 hv (ih (by omega) hv')

/-- C7.  After processing any u64-valid order sequence: every stored resting
order's `remaining` lies within `[0, A]` where `A` is the submitted amount of
the order that received its ordinal (`origBound`), no stored order has
`remaining = 0` (an order consumed to 0 is discarded, never stored), and no
price key on either side maps to an empty queue. -/
theorem claim_C7 (os : List Order) (hlen : os.length < U64)
    (hv : ∀ o ∈ os, o.amount < U64) :
    (∀ kl ∈ (MatchingEngine.run os).bids, kl.2 ≠ ([] : Level) ∧
       ∀ p ∈ kl.2, origBound os p ∧ p.remaining ≠ 0) ∧
    (∀ kl ∈ (MatchingEngine.run os).asks, kl.2 ≠ ([] : Level) ∧
       ∀ p ∈ kl.2, origBound os p ∧ p.remaining ≠ 0) := by
  obtain ⟨-, hb, ha⟩ := run_inv os hlen hv
  constructor
  · intro kl hkl
    obtain ⟨hne, hlg⟩ := hb.2 kl hkl
    refine ⟨hne, fun p hp => ?_⟩
    obtain ⟨-, h2, h3, -, -, h6⟩ := hlg p hp
    exact ⟨h6, (Nat.lt_of_lt_of_le h2 h3).ne'⟩
  · intro kl hkl
    obtain ⟨hne, hlg⟩ := ha.2 kl hkl
    refine ⟨hne, fun p hp => ?_⟩
    obtain ⟨-, h2, h3, -, -, h6⟩ := hlg p hp
    exact ⟨h6, (Nat.lt_of_lt_of_le h2 h3).ne'⟩

/-- Witness for C7 on the one-order sequence `Sell 2@10` by ALICE. -/
theorem claim_C7_witness :
    (∀ kl ∈ (MatchingEngine.run [⟨10, 2, Side.Sell, "ALICE"⟩]).bids,
       kl.2 ≠ ([] : Level) ∧
       ∀ p ∈ kl.2, origBound [⟨10, 2, Side.Sell, "ALICE"⟩] p ∧ p.remaining ≠ 0) ∧
    (∀ kl ∈ (MatchingEngine.run [⟨10, 2, Side.Sell, "ALICE"⟩]).asks,
       kl.2 ≠ ([] : Level) ∧
       ∀ p ∈ kl.2, origBound [⟨10, 2, Side.Sell, "ALICE"⟩] p ∧ p.remaining ≠ 0) :=
  claim_C7 [⟨10, 2, Side.Sell, "ALICE"⟩] (by decide) (by decide)

/-- C8.  Price bounds on fills: processing any order against any reachable
engine state (reached through u64-valid orders) only records fills whose
price respects the incoming limit — at most `P` for an incoming buy, at
least `P` for an incoming sell. -/
theorem claim_C8 (os : List Order) (o : Order) (hlen : os.length < U64)
    (hv : ∀ o' ∈ os, o'.amount < U64) :
    ∀ m ∈ ((MatchingEngine.run os).process o).1.matches,
      (o.side = Side.Buy → m.price ≤ o.price) ∧
      (o.side = Side.Sell → o.price ≤ m.price) := by
  obtain ⟨-, hb, ha⟩ := run_inv os hlen hv
  obtain ⟨pr, am, sd, sg⟩ := o
  cases sd with
  | Buy =>
    intro m hm
    refine ⟨fun _ => ?_, fun hc => Side.noConfusion hc⟩
    rw [process_matches_buy] at hm
    rcases matchLoop_matches_mem _ _ _ m hm with h | ⟨kl, hkl, p, hp, rfl⟩
    · exact absurd h (List.not_mem_nil m)
    · show p.price ≤ pr
      have hkey : kl.1 ≤ pr := by
        simpa using List.mem_takeWhile_imp hkl
      have hpk : p.price = kl.1 :=
        ((ha.2 kl ((List.takeWhile_sublist _).subset hkl)).2 p hp).1
      omega
  | Sell =>
    intro m hm
    refine ⟨fun hc => Side.noConfusion hc, fun _ => ?_⟩
    rw [process_matches_sell] at hm
    rcases matchLoop_matches_mem _ _ _ m hm with h | ⟨kl, hkl, p, hp, rfl⟩
    · exact absurd h (List.not_mem_nil m)
    · show pr ≤ p.price
      have hkey : pr ≤ kl.1 := mem_dropWhile_keys_ge hb.1 kl hkl
      have hpk : p.price = kl.1 :=
        ((hb.2 kl ((List.dropWhile_sublist _).subset hkl)).2 p hp).1
      omega

/-- Witness for C8: BOB's `Buy 1@10` against ALICE's resting `Sell 1@10`
fills at price 10 ≤ 10. -/
theorem claim_C8_witness :
    ((⟨10, 1, Side.Buy, "BOB"⟩ : Order).side = Side.Buy →
       (⟨10, 1, 0, Side.Sell, "ALICE", 1⟩ : PartialOrder).price ≤
         (⟨10, 1, Side.Buy, "BOB"⟩ : Order).price) ∧
    ((⟨10, 1, Side.Buy, "BOB"⟩ : Order).side = Side.Sell →
       (⟨10, 1, Side.Buy, "BOB"⟩ : Order).price ≤
         (⟨10, 1, 0, Side.Sell, "ALICE", 1⟩ : PartialOrder).price) :=
  claim_C8 [⟨10, 1, Side.Sell, "ALICE"⟩] ⟨10, 1, Side.Buy, "BOB"⟩
    (by decide) (by decide) ⟨10, 1, 0, Side.Sell, "ALICE", 1⟩ (by decide)

/-- C9, amended.  In every reachable engine state (u64-valid order
sequence), `get_amount_at_price_level` returns the wrapping u64 sum of the
stored `amount` fields — not the `remaining` fields — of the resting orders
at exactly that price on that side; it returns 0 whenever the side has no
entry at that price, and any present price level is a nonempty queue whose
stored `amount`s are all strictly positive.  (The function is a pure read:
the model's `process` is the only state transformer.) -/
theorem claim_C9 (os : List Order) (price : Nat) (side : Side)
    (hlen : os.length < U64) (hv : ∀ o ∈ os, o.amount < U64) :
    (lookupLevel (sideBook (MatchingEngine.run os) side) price = none →
       MatchingEngine.get_amount_at_price_level (MatchingEngine.run os) price side = 0) ∧
    (∀ l, lookupLevel (sideBook (MatchingEngine.run os) side) price = some l →
       MatchingEngine.get_amount_at_price_level (MatchingEngine.run os) price side =
         wsum (l.map (fun p => p.amount)) ∧
       l ≠ ([] : Level) ∧ ∀ p ∈ l, 0 < p.amount) := by
  obtain ⟨-, hb, ha⟩ := run_inv os hlen hv
  cases side with
  | Buy =>
    refine ⟨?_, ?_⟩
    · intro h
      simp only [sideBook] at h
      simp only [MatchingEngine.get_amount_at_price_level]
      rw [h]
    · intro l hl
      simp only [sideBook] at hl
      obtain ⟨kl, hfind, hsnd⟩ := Option.map_eq_some'.mp hl
      have hmem : kl ∈ (MatchingEngine.run os).bids :=
        List.mem_of_find?_eq_some hfind
      refine ⟨?_, ?_, ?_⟩
      · simp only [MatchingEngine.get_amount_at_price_level]
        rw [hl]
      · rw [← hsnd]
        exact (hb.2 kl hmem).1
      · intro p hp
        exact ((hb.2 kl hmem).2 p (by rw [hsnd]; exact hp)).2.1
  | Sell =>
    refine ⟨?_, ?_⟩
    · intro h
      simp only [sideBook] at h
      simp only [MatchingEngine.get_amount_at_price_level]
      rw [h]
    · intro l hl
      simp only [sideBook] at hl
      obtain ⟨kl, hfind, hsnd⟩ := Option.map_eq_some'.mp hl
      have hmem : kl ∈ (MatchingEngine.run os).asks :=
        List.mem_of_find?_eq_some hfind
      refine ⟨?_, ?_, ?_⟩
      · simp only [MatchingEngine.get_amount_at_price_level]
        rw [hl]
      · rw [← hsnd]
        exact (ha.2 kl hmem).1
      · intro p hp
        exact ((ha.2 kl hmem).2 p (by rw [hsnd]; exact hp)).2.1

/-- Witness for C9, amended, at the state after `Sell 2@10` (ALICE). -/
theorem claim_C9_witness :
    (lookupLevel (sideBook (MatchingEngine.run [⟨10, 2, Side.Sell, "ALICE"⟩]) Side.Sell) 10 = none →
       MatchingEngine.get_amount_at_price_level
         (MatchingEngine.run [⟨10, 2, Side.Sell, "ALICE"⟩]) 10 Side.Sell = 0) ∧
    (∀ l, lookupLevel (sideBook (MatchingEngine.run [⟨10, 2, Side.Sell, "ALICE"⟩]) Side.Sell) 10 = some l →
       MatchingEngine.get_amount_at_price_level
         (MatchingEngine.run [⟨10, 2, Side.Sell, "ALICE"⟩]) 10 Side.Sell =
         wsum (l.map (fun p => p.amount)) ∧
       l ≠ ([] : Level) ∧ ∀ p ∈ l, 0 < p.amount) :=
  claim_C9 [⟨10, 2, Side.Sell, "ALICE"⟩] 10 Side.Sell (by decide) (by decide)

end Matching
